import Mathlib

/-!
Verification development for the EPUB structural-parsing and content-extraction
core of the access-calibre-deno repository (class CalibreClient plus the
chunked-reading tool handler).

Strings from the source are modelled as lists of characters (Str), so that
JavaScript string primitives (split, join, substring, indexOf, toLowerCase)
can be given faithful executable models with provable structural lemmas.
Effectful inputs (the zip archive, the regex-scanning front end that produces
match lists, and percent-decoding of hrefs) are modelled as explicit data and
oracle functions; the control flow, resource handling and all pure
computations are translated directly from the source.
-/

namespace AccessCalibre

/-- A JavaScript string, modelled as its list of characters. -/
abbrev Str := List Char

/-! ## Path normalizer (CalibreClient._normalizePath, source lines 511-523) -/

/-- Helper for the model of JavaScript String.prototype.split with separator
"/": returns the first segment of the string together with the remaining
segments. -/
def splitAux : Str → Str × List Str
  | [] => ([], [])
  | c :: rest =>
    let r := splitAux rest
    if c = '/' then ([], r.1 :: r.2) else (c :: r.1, r.2)

/-- Model of JavaScript filePath.split("/"): the list of '/'-separated
segments. Never empty; splitting the empty string yields one empty segment,
exactly as in JavaScript. -/
def splitOnSlash (s : Str) : List Str := (splitAux s).1 :: (splitAux s).2

/-- Model of JavaScript stack.join("/"): interleave the segments with '/'. -/
def joinSlash : List Str → Str
  | [] => []
  | [s] => s
  | s :: t :: rest => s ++ '/' :: joinSlash (t :: rest)

/-- One iteration of the loop body of _normalizePath: skip empty and "."
segments, pop the accumulated stack on ".." (a no-op on an empty stack),
push every other segment. -/
def normStep (stack : List Str) (part : Str) : List Str :=
  if part = ['.'] ∨ part = [] then stack
  else if part = ['.', '.'] then stack.dropLast
  else stack ++ [part]

/-- The segment stack computed by _normalizePath for a path. -/
def normalizeStack (s : Str) : List Str := (splitOnSlash s).foldl normStep []

/-- Model of CalibreClient._normalizePath: split on '/', drop empty and "."
segments, pop on "..", rejoin with '/'. -/
def normalizePath (s : Str) : Str := joinSlash (normalizeStack s)

/-! ## Small path helpers used by getChapters (source lines 542, 576, 604) -/

/-- Model of the opfDir computation (source line 542): when the package path
contains a '/', everything up to and including the last '/', else the empty
string (this equals opfPath.substring(0, opfPath.lastIndexOf("/") + 1)). -/
def opfDirOf (p : Str) : Str :=
  if '/' ∈ p then (p.reverse.dropWhile (fun c => c ≠ '/')).reverse else []

/-- Model of path.split("/").pop() (source line 576): the final '/'-delimited
segment of a path. -/
def lastSegment (p : Str) : Str := (splitOnSlash p).getLastD []

/-- Model of the fragment stripping applied to TOC hrefs (source lines 604 and
626): if the href contains '#', keep only the part before the first '#'. -/
def stripFragment (h : Str) : Str :=
  if '#' ∈ h then h.takeWhile (fun c => c ≠ '#') else h

/-! ## Data model (spec section 3) -/

/-- A table-of-contents entry: a navigation title paired with the canonical
archive path it labels. -/
structure TocEntry where
  title : Str
  path : Str
deriving DecidableEq

/-- A chapter as exposed by getChapters: a title and a canonical path. -/
structure Chapter where
  title : Str
  path : Str
deriving DecidableEq

/-- A search hit produced by searchInBook (source lines 698-703). -/
structure SearchHit where
  chapterTitle : Str
  chapterPath : Str
  markdownOffset : Nat
  snippet : Str
deriving DecidableEq

/-! ## Manifest, spine and chapter construction (source lines 551-579)

The regex scanning front end of getChapters is modelled as an oracle that
yields the match lists in document order: the manifest item matches as
(id, decodedHref) pairs (either attribute order, percent-decoding already
applied as in source lines 557-558) and the spine itemref matches as the list
of idref strings.  Everything done with those lists is translated directly. -/

/-- Model of the manifest object construction (source lines 551-560): each
item match assigns manifest[id] = _normalizePath(opfDir + decodedHref).
The association list keeps document order; a later binding for the same id
overwrites an earlier one, which manifestLookup reproduces. -/
def buildManifest (opfDir : Str) (items : List (Str × Str)) : List (Str × Str) :=
  items.map (fun pr => (pr.1, normalizePath (opfDir ++ pr.2)))

/-- Model of reading manifest[idref] from the JavaScript object: the LAST
binding for the identifier wins, none when the identifier is absent. -/
def manifestLookup (manifest : List (Str × Str)) (id : Str) : Option Str :=
  (manifest.reverse.find? (fun pr => pr.1 == id)).map (fun pr => pr.2)

/-- Model of the spine construction (source lines 562-570): for each itemref
idref in document order, push manifest[idref] when that value is truthy.
JavaScript truthiness makes this skip both absent identifiers and
identifiers bound to the empty string. -/
def buildSpine (manifest : List (Str × Str)) (idrefs : List Str) : List Str :=
  idrefs.filterMap (fun idref =>
    match manifestLookup manifest idref with
    | some p => if p = [] then none else some p
    | none => none)

/-- Model of the per-spine-path chapter construction (source lines 573-579):
take the title of the first TOC entry whose path equals the spine path, else
the final path segment. -/
def chapterFor (toc : List TocEntry) (path : Str) : Chapter :=
  match toc.find? (fun t => t.path == path) with
  | some t => { title := t.title, path := path }
  | none => { title := lastSegment path, path := path }

/-- Model of spine.map(...) building the chapter list (source lines 573-579). -/
def buildChapters (toc : List TocEntry) (spine : List Str) : List Chapter :=
  spine.map (chapterFor toc)

/-- The pure chapter pipeline of getChapters, given the parsed package
document: manifest table, spine resolution, then the per-path title join. -/
def getChaptersPure (opfDir : Str) (items : List (Str × Str)) (idrefs : List Str)
    (toc : List TocEntry) : List Chapter :=
  buildChapters toc (buildSpine (buildManifest opfDir items) idrefs)

/-! ## TOC resolution (CalibreClient.getTOCFromEntries, source lines 585-637) -/

/-- The canonical path a TOC href resolves to (source lines 603-605 and
625-627): strip any '#' fragment, then normalize opfDir + href. -/
def resolvedPath (opfDir : Str) (href : Str) : Str :=
  normalizePath (opfDir ++ stripFragment href)

/-- Model of the conditional toc.push (source lines 606-608 and 629-631):
append the entry unless some existing entry already has the same path. -/
def tocInsert (toc : List TocEntry) (title path : Str) : List TocEntry :=
  if toc.any (fun t => t.path == path) then toc else toc ++ [⟨title, path⟩]

/-- Model of one TOC tier's entry loop: the parsed (label, href) matches are
processed in document order; each href has its fragment stripped, is resolved
against opfDir, and is kept only on first occurrence of its resolved path.
Both the legacy navPoint loop and the modern anchor loop have this shape. -/
def buildTocTier (opfDir : Str) (points : List (Str × Str)) : List TocEntry :=
  points.foldl (fun toc pr => tocInsert toc pr.1 (resolvedPath opfDir pr.2)) []

/-! ## Archive-level run model

An archive entry carries its filename, whether it has retrievable data (the
"getData" in entry check), and the outcome of entry.getData(new TextWriter()),
which may throw.  The Nat paired with each operation's result counts how many
times reader.close() ran before control returned to the caller. -/

/-- A zip entry as seen through the zip-js reader. -/
structure EntryModel where
  filename : Str
  hasData : Bool
  data : Except String Str

/-- The regex-scanning front end of getChapters and getTOCFromEntries,
as an oracle over the raw XML text of each document:
  extractFullPath - the full-path="..." match on container.xml (line 536);
  parseItems      - manifest item (id, decodedHref) matches (lines 552-559);
  parseIdrefs     - spine itemref idref matches (lines 563-566);
  ncxHref         - the href of the manifest item with the ncx media type,
                    none when either the id or the href regex fails
                    (lines 586-593);
  parseNavPoints  - navPoint (trimmed label, content src) matches (line 599);
  navHref         - the href of the manifest item with the nav property
                    (lines 615-616);
  parseNavLinks   - anchor (tag-stripped trimmed label, href) matches
                    (line 622). -/
structure ParseOracles where
  extractFullPath : Str → Option Str
  parseItems : Str → List (Str × Str)
  parseIdrefs : Str → List Str
  ncxHref : Str → Option Str
  parseNavPoints : Str → List (Str × Str)
  navHref : Str → Option Str
  parseNavLinks : Str → List (Str × Str)

/-- Model of entries.find(e => e.filename === path). -/
def findEntry (entries : List EntryModel) (path : Str) : Option EntryModel :=
  entries.find? (fun e => e.filename == path)

/-- One TOC tier of getTOCFromEntries: look up the tier document by its
archive path; silently yield no entries when the document is absent or is a
directory; read it (getData may throw) and run the entry loop. -/
def runTier (entries : List EntryModel) (opfDir : Str) (entryPath : Str)
    (points : Str → List (Str × Str)) : Except String (List TocEntry) :=
  match findEntry entries entryPath with
  | some e =>
    if e.hasData then (e.data).map (fun xml => buildTocTier opfDir (points xml))
    else .ok []
  | none => .ok []

/-- The legacy tier (source lines 586-612): the NCX document is addressed by
opfDir + href WITHOUT normalization (line 595). -/
def legacyTier (entries : List EntryModel) (O : ParseOracles) (opfXml opfDir : Str) :
    Except String (List TocEntry) :=
  match O.ncxHref opfXml with
  | some href => runTier entries opfDir (opfDir ++ href) O.parseNavPoints
  | none => .ok []

/-- The modern tier (source lines 614-635): the nav document is addressed by
_normalizePath(opfDir + href) (line 618). -/
def modernTier (entries : List EntryModel) (O : ParseOracles) (opfXml opfDir : Str) :
    Except String (List TocEntry) :=
  match O.navHref opfXml with
  | some href => runTier entries opfDir (normalizePath (opfDir ++ href)) O.parseNavLinks
  | none => .ok []

/-- Model of getTOCFromEntries (source lines 585-637): try the legacy tier;
consult the modern tier exactly when the legacy tier produced zero entries;
an empty result is returned without error. -/
def getTOCRun (entries : List EntryModel) (O : ParseOracles) (opfXml opfDir : Str) :
    Except String (List TocEntry) := do
  let t1 ← legacyTier entries O opfXml opfDir
  if t1.length = 0 then modernTier entries O opfXml opfDir else pure t1

/-- The fixed container pointer path (source line 530). -/
def containerPath : Str := "META-INF/container.xml".toList

/-- Model of CalibreClient.getChapters (source lines 525-583) after the
archive has been opened, paired with the number of reader.close() calls
performed on that control path.  Each early-return error closes the reader
explicitly before throwing (count 1); an exception thrown by getData on the
container document, the package document, or inside getTOCFromEntries
propagates without reaching any close call (count 0); the success path
closes once at the end (count 1). -/
def getChaptersRun (entries : List EntryModel) (O : ParseOracles) :
    Except String (List Chapter) × Nat :=
  match findEntry entries containerPath with
  | none => (.error "EPUB missing META-INF/container.xml or it is a directory", 1)
  | some ce =>
    if ce.hasData = false then
      (.error "EPUB missing META-INF/container.xml or it is a directory", 1)
    else
      match ce.data with
      | .error e => (.error e, 0)
      | .ok containerXml =>
        match O.extractFullPath containerXml with
        | none => (.error "Could not find root file in container.xml", 1)
        | some opfPath =>
          let opfDir := opfDirOf opfPath
          match findEntry entries opfPath with
          | none => (.error "Could not find OPF file or it is a directory", 1)
          | some oe =>
            if oe.hasData = false then
              (.error "Could not find OPF file or it is a directory", 1)
            else
              match oe.data with
              | .error e => (.error e, 0)
              | .ok opfXml =>
                match getTOCRun entries O opfXml opfDir with
                | .error e => (.error e, 0)
                | .ok toc =>
                  (.ok (getChaptersPure opfDir (O.parseItems opfXml)
                        (O.parseIdrefs opfXml) toc), 1)

/-- Model of CalibreClient.getEpubFile (source lines 492-509) after the
archive has been opened, paired with the number of reader.close() calls:
a missing entry or a directory closes then throws (count 1); a getData
exception propagates without any close (count 0); success closes once. -/
def getEpubFileRun (entries : List EntryModel) (filePath : Str) :
    Except String Str × Nat :=
  match findEntry entries filePath with
  | none => (.error "File not found or is a directory in EPUB", 1)
  | some f =>
    if f.hasData = false then (.error "File not found or is a directory in EPUB", 1)
    else
      match f.data with
      | .error e => (.error e, 0)
      | .ok content => (.ok content, 1)

/-! ## Book search engine (CalibreClient.searchInBook, source lines 682-710)

The per-chapter text retrieval and markdown conversion
(htmlToMarkdown(getChapterContent(path))) is modelled as a total oracle
getText from chapter paths to converted text; the scan loops, the
case-folding, the 50-hit cap and the snippet construction are translated
directly. -/

/-- Model of JavaScript toLowerCase, character by character. -/
def jsToLower (s : Str) : Str := s.map Char.toLower

/-- Does the needle q occur in s at position i? -/
def occursAt (s q : Str) (i : Nat) : Bool := q.isPrefixOf (s.drop i)

/-- Linear scan for the first occurrence of q in s at a position in
[start, start + fuel). -/
def findFrom (s q : Str) : Nat → Nat → Option Nat
  | _, 0 => none
  | start, fuel + 1 =>
    if occursAt s q start then some start else findFrom s q (start + 1) fuel

/-- Model of JavaScript s.indexOf(q, fromIdx): the position argument is
clamped to [0, s.length], and the first match position in
[clamped fromIdx, s.length] is returned (the upper bound s.length is
reachable only for an empty needle, exactly as in JavaScript). -/
def indexOfFrom (s q : Str) (fromIdx : Nat) : Option Nat :=
  let start := min fromIdx s.length
  findFrom s q start (s.length + 1 - start)

/-- The hit cap of searchInBook (source lines 705 and 707). -/
def maxResults : Nat := 50

/-- The snippet context window of searchInBook (source line 694). -/
def snippetWindow : Nat := 200

/-- One pushed result (source lines 695-703): the snippet is
markdownContent.substring(max(0, index - 200), min(length, index + query.length + 200))
taken from the ORIGINAL (non-folded) converted text. -/
def mkHit (title path text : Str) (qlen i : Nat) : SearchHit :=
  { chapterTitle := title
    chapterPath := path
    markdownOffset := i
    snippet := (text.take (min text.length (i + qlen + snippetWindow))).drop
      (i - snippetWindow) }

/-- The inner while loop of searchInBook (source lines 692-706): repeatedly
search the case-folded text from one past the previous match start, push a
hit per match, and break as soon as the accumulated results reach the cap.
Each iteration pushes exactly one hit, so 'maxResults - acc.length' iterations
always suffice; the fuel argument is instantiated with that bound, making the
fuel-exhaustion branch unreachable from searchLoop. -/
def scanChapterLoop (title path text lower lowerQ : Str) (qlen : Nat) :
    Nat → Nat → List SearchHit → List SearchHit
  | 0, _, acc => acc
  | fuel + 1, fromIdx, acc =>
    match indexOfFrom lower lowerQ fromIdx with
    | none => acc
    | some i =>
      let acc' := acc ++ [mkHit title path text qlen i]
      if maxResults ≤ acc'.length then acc'
      else scanChapterLoop title path text lower lowerQ qlen fuel (i + 1) acc'

/-- The outer for loop of searchInBook (source lines 687-708): per chapter,
fetch and convert its content, case-fold it, run the inner loop, and break
across the remaining chapters once the cap is reached. -/
def searchLoop (getText : Str → Str) (lowerQ : Str) (qlen : Nat) :
    List Chapter → List SearchHit → List SearchHit
  | [], acc => acc
  | ch :: rest, acc =>
    let text := getText ch.path
    let acc' := scanChapterLoop ch.title ch.path text (jsToLower text) lowerQ qlen
      (maxResults - acc.length) 0 acc
    if maxResults ≤ acc'.length then acc'
    else searchLoop getText lowerQ qlen rest acc'

/-- Model of CalibreClient.searchInBook over an already-resolved chapter list:
case-fold the query once (source line 685), then scan every chapter. The
snippet bound uses the length of the ORIGINAL query (source line 696). -/
def searchInBook (chapters : List Chapter) (getText : Str → Str) (query : Str) :
    List SearchHit :=
  searchLoop getText (jsToLower query) query.length chapters []

/-- Specification-side list of all positions at which q occurs in s, in
increasing order, scanning positions start, start+1, ... for fuel steps. -/
def occsFrom (s q : Str) : Nat → Nat → List Nat
  | _, 0 => []
  | start, fuel + 1 =>
    if occursAt s q start then start :: occsFrom s q (start + 1) fuel
    else occsFrom s q (start + 1) fuel

/-- All occurrence positions of q in s (position s.length included, which is
reachable only for an empty q), in increasing order. -/
def occurrences (s q : Str) : List Nat := occsFrom s q 0 (s.length + 1)

/-! ## Chunked reader (tool handler get_chapter_content_markdown,
source lines 279-288) -/

/-- Model of JavaScript s.substring(a, b): both arguments are clamped to
[0, s.length] and swapped when the first exceeds the second. -/
def jsSubstring (s : Str) (a b : Int) : Str :=
  let len : Int := (s.length : Int)
  let a' := min (max a 0) len
  let b' := min (max b 0) len
  ((s.take (max a' b').toNat).drop (min a' b').toNat)

/-- The continuation marker appended by the tool handler (source line 285). -/
def truncMarker (next : Int) : Str :=
  ("\n\n... (truncated, use offset " ++ toString next ++ " to read more)").toList

/-- Model of the chunked read (source lines 282-287): window the converted
text with substring semantics, and append the continuation marker exactly
when totalLength > offset + length. -/
def chunkRead (text : Str) (offset len : Int) : Str :=
  let content := jsSubstring text offset (offset + len)
  if (text.length : Int) > offset + len then content ++ truncMarker (offset + len)
  else content

/-! ## Concrete demonstration archives -/

/-- Parse oracles for the scenario archive: the container pointer names
OEBPS/content.opf, the manifest maps "ch1" to "text/ch01.html", the spine
references "ch1", and no navigation document of either kind is declared. -/
def demoOracles : ParseOracles :=
  { extractFullPath := fun _ => some "OEBPS/content.opf".toList
    parseItems := fun _ => [("ch1".toList, "text/ch01.html".toList)]
    parseIdrefs := fun _ => ["ch1".toList]
    ncxHref := fun _ => none
    parseNavPoints := fun _ => []
    navHref := fun _ => none
    parseNavLinks := fun _ => [] }

/-- Entries of the scenario archive; every read succeeds. -/
def demoEntries : List EntryModel :=
  [ ⟨containerPath, true, .ok []⟩,
    ⟨"OEBPS/content.opf".toList, true, .ok []⟩,
    ⟨"OEBPS/text/ch01.html".toList, true, .ok "<html/>".toList⟩ ]

/-- An archive whose container document exists but whose compressed data is
corrupt: getData throws. -/
def demoEntriesBadContainer : List EntryModel :=
  [ ⟨containerPath, true, .error "corrupt entry data"⟩ ]

/-- Parse oracles that declare a legacy NCX navigation document at
OEBPS/toc.ncx. -/
def demoOraclesNcx : ParseOracles :=
  { demoOracles with ncxHref := fun _ => some "toc.ncx".toList }

/-- An archive whose container and package documents read fine but whose NCX
navigation document throws on getData, so the failure happens while
extracting the table of contents. -/
def demoEntriesBadNcx : List EntryModel :=
  [ ⟨containerPath, true, .ok []⟩,
    ⟨"OEBPS/content.opf".toList, true, .ok []⟩,
    ⟨"OEBPS/toc.ncx".toList, true, .error "corrupt ncx data"⟩ ]

/-! ## Canonical-form predicates (spec glossary: canonical path) -/

/-- A path segment in canonical form: non-empty and not a dot segment. -/
def canonicalSeg (seg : Str) : Prop :=
  seg ≠ [] ∧ seg ≠ ['.'] ∧ seg ≠ ['.', '.']

/-- A non-empty path in canonical form: every '/'-delimited segment is
canonical, and there is no leading or trailing '/'. -/
def canonicalPath (p : Str) : Prop :=
  (∀ seg ∈ splitOnSlash p, canonicalSeg seg) ∧
  p.head? ≠ some '/' ∧ p.getLast? ≠ some '/'

/-! # Lemmas -/

/-! ## Splitting and joining on '/' -/

theorem splitAux_append_slash (xs ys : Str) :
    splitAux (xs ++ '/' :: ys) = ((splitAux xs).1, (splitAux xs).2 ++ splitOnSlash ys) := by
  induction xs with
  | nil => simp [splitAux, splitOnSlash]
  | cons c xs ih =>
    by_cases hc : c = '/' <;> simp [splitAux, ih, hc]

theorem splitOnSlash_append (xs ys : Str) :
    splitOnSlash (xs ++ '/' :: ys) = splitOnSlash xs ++ splitOnSlash ys := by
  simp [splitOnSlash, splitAux_append_slash]

theorem splitAux_of_no_slash (s : Str) (h : '/' ∉ s) : splitAux s = (s, []) := by
  induction s with
  | nil => rfl
  | cons c rest ih =>
    have hc : c ≠ '/' := fun hc => h (hc ▸ List.mem_cons_self c rest)
    have hr : '/' ∉ rest := fun hr => h (List.mem_cons_of_mem c hr)
    simp [splitAux, ih hr, hc]

theorem splitOnSlash_of_no_slash (s : Str) (h : '/' ∉ s) : splitOnSlash s = [s] := by
  simp [splitOnSlash, splitAux_of_no_slash s h]

theorem splitAux_no_slash (s : Str) :
    '/' ∉ (splitAux s).1 ∧ ∀ seg ∈ (splitAux s).2, '/' ∉ seg := by
  induction s with
  | nil => simp [splitAux]
  | cons c rest ih =>
    by_cases hc : c = '/'
    · simpa [splitAux, hc] using ⟨ih.1, ih.2⟩
    · refine ⟨?_, by simpa [splitAux, hc] using ih.2⟩
      intro hmem
      rcases List.mem_cons.mp (by simpa [splitAux, hc] using hmem) with h | h
      · exact hc h.symm
      · exact ih.1 h

theorem splitOnSlash_no_slash (s : Str) : ∀ seg ∈ splitOnSlash s, '/' ∉ seg := by
  intro seg hseg
  rcases List.mem_cons.mp hseg with h | h
  · exact h ▸ (splitAux_no_slash s).1
  · exact (splitAux_no_slash s).2 seg h

theorem joinSlash_ne_nil : ∀ (stack : List Str), (∀ seg ∈ stack, seg ≠ []) →
    stack ≠ [] → joinSlash stack ≠ []
  | [], h, hne => absurd rfl hne
  | [s], h, _ => h s (List.mem_singleton.mpr rfl)
  | s :: t :: rest, _, _ => by
    simp [joinSlash]

theorem splitOnSlash_joinSlash : ∀ (stack : List Str), stack ≠ [] →
    (∀ seg ∈ stack, '/' ∉ seg) → splitOnSlash (joinSlash stack) = stack
  | [], hne, _ => absurd rfl hne
  | [s], _, h => by
    simpa [joinSlash] using splitOnSlash_of_no_slash s (h s (List.mem_singleton.mpr rfl))
  | s :: t :: rest, _, h => by
    have hs : '/' ∉ s := h s (List.mem_cons_self _ _)
    have hrest : ∀ seg ∈ t :: rest, '/' ∉ seg :=
      fun seg hseg => h seg (List.mem_cons_of_mem _ hseg)
    calc splitOnSlash (joinSlash (s :: t :: rest))
        = splitOnSlash (s ++ '/' :: joinSlash (t :: rest)) := by simp [joinSlash]
      _ = splitOnSlash s ++ splitOnSlash (joinSlash (t :: rest)) := splitOnSlash_append _ _
      _ = [s] ++ (t :: rest) := by
          rw [splitOnSlash_of_no_slash s hs,
            splitOnSlash_joinSlash (t :: rest) (List.cons_ne_nil _ _) hrest]
      _ = s :: t :: rest := rfl

/-! ## The normalization fold -/

theorem foldl_normStep_push : ∀ (parts : List Str) (st : List Str),
    (∀ seg ∈ parts, canonicalSeg seg) → parts.foldl normStep st = st ++ parts
  | [], st, _ => by simp
  | p :: parts, st, h => by
    have hp : canonicalSeg p := h p (List.mem_cons_self _ _)
    have hstep : normStep st p = st ++ [p] := by
      simp [normStep, hp.1, hp.2.1, hp.2.2]
    rw [List.foldl_cons, hstep,
      foldl_normStep_push parts (st ++ [p]) (fun seg hseg => h seg (List.mem_cons_of_mem _ hseg))]
    simp

theorem foldl_normStep_good : ∀ (parts : List Str) (st : List Str),
    (∀ seg ∈ st, canonicalSeg seg ∧ '/' ∉ seg) → (∀ seg ∈ parts, '/' ∉ seg) →
    ∀ seg ∈ parts.foldl normStep st, canonicalSeg seg ∧ '/' ∉ seg
  | [], st, hst, _ => by simpa using hst
  | p :: parts, st, hst, hparts => by
    have hstep : ∀ seg ∈ normStep st p, canonicalSeg seg ∧ '/' ∉ seg := by
      unfold normStep
      split
      · exact hst
      · split
        · exact fun seg hseg => hst seg (List.dropLast_sublist st |>.subset hseg)
        · intro seg hseg
          rcases List.mem_append.mp hseg with h | h
          · exact hst seg h
          · have he : seg = p := List.mem_singleton.mp h
            subst he
            refine ⟨⟨?_, ?_, ?_⟩, hparts seg (List.mem_cons_self _ _)⟩
            all_goals rename_i h1 h2; intro hc
            · exact h1 (Or.inr hc)
            · exact h1 (Or.inl hc)
            · exact h2 hc
    exact foldl_normStep_good parts (normStep st p) hstep
      (fun seg hseg => hparts seg (List.mem_cons_of_mem _ hseg))

theorem normalizeStack_good (s : Str) :
    ∀ seg ∈ normalizeStack s, canonicalSeg seg ∧ '/' ∉ seg :=
  foldl_normStep_good (splitOnSlash s) [] (by simp) (splitOnSlash_no_slash s)

theorem normalizePath_eq_of_stack (s : Str) (hne : normalizeStack s ≠ []) :
    normalizeStack (normalizePath s) = normalizeStack s := by
  have hgood := normalizeStack_good s
  have hsplit : splitOnSlash (normalizePath s) = normalizeStack s :=
    splitOnSlash_joinSlash (normalizeStack s) hne (fun seg hseg => (hgood seg hseg).2)
  unfold normalizeStack at hsplit ⊢
  rw [hsplit]
  rw [foldl_normStep_push _ [] (fun seg hseg => (hgood seg (by simpa using hseg)).1)]
  simp

theorem normalizePath_idem (s : Str) : normalizePath (normalizePath s) = normalizePath s := by
  by_cases hne : normalizeStack s = []
  · have h1 : normalizePath s = [] := by simp [normalizePath, hne, joinSlash]
    rw [h1]
    rfl
  · show joinSlash (normalizeStack (normalizePath s)) = normalizePath s
    rw [normalizePath_eq_of_stack s hne]
    rfl

theorem normalizePath_canonical (s : Str) (h : normalizePath s ≠ []) :
    canonicalPath (normalizePath s) := by
  have hgood := normalizeStack_good s
  have hne : normalizeStack s ≠ [] := by
    intro he
    exact h (by simp [normalizePath, he, joinSlash])
  have hsplit : splitOnSlash (normalizePath s) = normalizeStack s :=
    splitOnSlash_joinSlash (normalizeStack s) hne (fun seg hseg => (hgood seg hseg).2)
  refine ⟨fun seg hseg => (hgood seg (hsplit ▸ hseg)).1, ?_, ?_⟩
  · -- no leading slash
    unfold normalizePath
    rcases List.exists_cons_of_ne_nil hne with ⟨s0, rest, hstack⟩
    have hs0 : canonicalSeg s0 ∧ '/' ∉ s0 := hgood s0 (hstack ▸ List.mem_cons_self _ _)
    rcases List.exists_cons_of_ne_nil hs0.1.1 with ⟨c, s0', hs0e⟩
    have hcne : c ≠ '/' := by
      intro hc
      exact hs0.2 (hs0e ▸ hc ▸ List.mem_cons_self _ _)
    rw [hstack]
    cases rest with
    | nil => simp [joinSlash, hs0e, hcne]
    | cons t rest' => simp [joinSlash, hs0e, hcne]
  · -- no trailing slash
    unfold normalizePath
    generalize hstack : normalizeStack s = stack at hne hgood
    clear hsplit hstack h
    induction stack with
    | nil => exact absurd rfl hne
    | cons s0 rest ih =>
      cases rest with
      | nil =>
        have hs0 : canonicalSeg s0 ∧ '/' ∉ s0 := hgood s0 (List.mem_cons_self _ _)
        intro hc
        have hmem : '/' ∈ s0 :=
          List.mem_of_getLast?_eq_some (by simpa [joinSlash] using hc)
        exact hs0.2 hmem
      | cons t rest' =>
        have hrest : ∀ seg ∈ t :: rest', canonicalSeg seg ∧ '/' ∉ seg :=
          fun seg hseg => hgood seg (List.mem_cons_of_mem _ hseg)
        have hjne : joinSlash (t :: rest') ≠ [] :=
          joinSlash_ne_nil (t :: rest') (fun seg hseg => (hrest seg hseg).1.1)
            (List.cons_ne_nil _ _)
        have hstep : (joinSlash (s0 :: t :: rest')).getLast? =
            (joinSlash (t :: rest')).getLast? := by
          show (s0 ++ '/' :: joinSlash (t :: rest')).getLast? = _
          rw [List.getLast?_append]
          rcases List.exists_cons_of_ne_nil hjne with ⟨x, xs, hxe⟩
          simp [hxe, List.getLast?_cons]
        rw [hstep]
        exact ih (List.cons_ne_nil _ _) hrest

theorem normStep_dotdot (st : List Str) : normStep st ['.', '.'] = st.dropLast := by
  unfold normStep
  rw [if_neg (by decide), if_pos (by decide)]

theorem normStep_single (st : List Str) (p : Str) (h1 : p ≠ ['.']) (h2 : p ≠ [])
    (h3 : p ≠ ['.', '.']) : normStep st p = st ++ [p] := by
  unfold normStep
  rw [if_neg (by simp [h1, h2]), if_neg h3]

/-- C8: the path normalizer satisfies the round trip
normalize(base + "a/b/../c") = normalize(base + "a/c") for every base string;
a "." segment and an empty segment are dropped, and a ".." with an empty
accumulator is a no-op, so excess ".." never errors. -/
theorem normalizePath_roundTrip :
    (∀ base : Str,
      normalizePath (base ++ "a/b/../c".toList) = normalizePath (base ++ "a/c".toList)) ∧
    (∀ s : Str, normalizePath ('.' :: '/' :: s) = normalizePath s) ∧
    (∀ s : Str, normalizePath ('/' :: s) = normalizePath s) ∧
    (∀ s : Str, normalizePath ('.' :: '.' :: '/' :: s) = normalizePath s) := by
  refine ⟨?_, ?_, ?_, ?_⟩
  · intro base
    have h1 : base ++ "a/b/../c".toList = (base ++ ['a']) ++ '/' :: "b/../c".toList := by
      simp
    have h2 : base ++ "a/c".toList = (base ++ ['a']) ++ '/' :: ['c'] := by
      simp
    have hs1 : splitOnSlash "b/../c".toList = [['b'], ['.', '.'], ['c']] := rfl
    unfold normalizePath normalizeStack
    rw [h1, h2, splitOnSlash_append, splitOnSlash_append, hs1,
      List.foldl_append, List.foldl_append]
    have hs2 : splitOnSlash ['c'] = [['c']] := rfl
    rw [hs2]
    generalize (splitOnSlash (base ++ ['a'])).foldl normStep [] = T
    have hb : List.foldl normStep T [['b'], ['.', '.'], ['c']] = T ++ [['c']] := by
      show normStep (normStep (normStep T ['b']) ['.', '.']) ['c'] = T ++ [['c']]
      rw [normStep_single T ['b'] (by decide) (by decide) (by decide), normStep_dotdot,
        List.dropLast_concat, normStep_single T ['c'] (by decide) (by decide) (by decide)]
    have hc : List.foldl normStep T [['c']] = T ++ [['c']] := by
      show normStep T ['c'] = T ++ [['c']]
      exact normStep_single T ['c'] (by decide) (by decide) (by decide)
    rw [hb, hc]
  · intro s
    have h1 : '.' :: '/' :: s = ['.'] ++ '/' :: s := rfl
    unfold normalizePath normalizeStack
    rw [h1, splitOnSlash_append]
    rfl
  · intro s
    have h1 : '/' :: s = [] ++ '/' :: s := rfl
    unfold normalizePath normalizeStack
    rw [h1, splitOnSlash_append]
    rfl
  · intro s
    have h1 : '.' :: '.' :: '/' :: s = ['.', '.'] ++ '/' :: s := rfl
    unfold normalizePath normalizeStack
    rw [h1, splitOnSlash_append]
    rfl

/-! ## Manifest, spine and chapter lemmas -/

theorem chapterFor_path (toc : List TocEntry) (p : Str) : (chapterFor toc p).path = p := by
  unfold chapterFor
  split <;> rfl

theorem buildChapters_map_path (toc : List TocEntry) (spine : List Str) :
    (buildChapters toc spine).map Chapter.path = spine := by
  unfold buildChapters
  rw [List.map_map, show Chapter.path ∘ chapterFor toc = id from funext (chapterFor_path toc),
    List.map_id]

theorem manifestLookup_mem {manifest : List (Str × Str)} {id q : Str}
    (h : manifestLookup manifest id = some q) : ∃ pr ∈ manifest, pr.2 = q := by
  unfold manifestLookup at h
  rcases Option.map_eq_some'.mp h with ⟨pr, hfind, hq⟩
  exact ⟨pr, List.mem_reverse.mp (List.mem_of_find?_eq_some hfind), hq⟩

theorem mem_buildSpine {manifest : List (Str × Str)} {idrefs : List Str} {p : Str}
    (h : p ∈ buildSpine manifest idrefs) : p ≠ [] ∧ ∃ pr ∈ manifest, pr.2 = p := by
  unfold buildSpine at h
  rcases List.mem_filterMap.mp h with ⟨id, _, hf⟩
  rcases hlook : manifestLookup manifest id with _ | q
  · rw [hlook] at hf
    exact absurd hf (by simp)
  · rw [hlook] at hf
    have hf' : (if q = [] then none else some q) = some p := hf
    by_cases hq : q = []
    · rw [if_pos hq] at hf'
      exact absurd hf' (by simp)
    · rw [if_neg hq] at hf'
      have hqp : q = p := by injection hf'
      subst hqp
      exact ⟨hq, manifestLookup_mem hlook⟩

theorem mem_buildManifest {opfDir : Str} {items : List (Str × Str)} {pr : Str × Str}
    (h : pr ∈ buildManifest opfDir items) : ∃ src, pr.2 = normalizePath src := by
  unfold buildManifest at h
  rcases List.mem_map.mp h with ⟨it, _, he⟩
  exact ⟨opfDir ++ it.2, by rw [← he]⟩

theorem buildSpine_eq_filterMap {manifest : List (Str × Str)} (idrefs : List Str)
    (hwf : ∀ pr ∈ manifest, pr.2 ≠ []) :
    buildSpine manifest idrefs = idrefs.filterMap (manifestLookup manifest) := by
  unfold buildSpine
  apply List.filterMap_congr
  intro id _
  rcases hlook : manifestLookup manifest id with _ | q
  · rfl
  · rcases manifestLookup_mem hlook with ⟨pr, hpr, hq⟩
    show (if q = [] then none else some q) = some q
    rw [if_neg (hq ▸ hwf pr hpr)]

/-! ## Claims C1 and C9 -/

/-- C1: for a well-formed package document (every manifest href resolving to
a non-empty canonical path, so that JavaScript truthiness agrees with
presence in the manifest), getChapters yields exactly one chapter per spine
itemref whose idref resolves through the manifest, in spine document order;
unresolved idrefs are silently skipped, duplicate spine paths pass through
undeduplicated, the table of contents (universally quantified here) never
changes the path sequence, and repeated runs on the same archive return the
same list. -/
theorem getChapters_spine_order (opfDir : Str) (items : List (Str × Str))
    (idrefs : List Str) (toc : List TocEntry)
    (hwf : ∀ pr ∈ buildManifest opfDir items, pr.2 ≠ []) :
    ((getChaptersPure opfDir items idrefs toc).map Chapter.path
      = idrefs.filterMap (manifestLookup (buildManifest opfDir items))) ∧
    (∀ entries O, getChaptersRun entries O = getChaptersRun entries O) := by
  constructor
  · unfold getChaptersPure
    rw [buildChapters_map_path, buildSpine_eq_filterMap idrefs hwf]
  · intro entries O
    rfl

/-- Witness for C1 at the scenario package document. -/
theorem getChapters_spine_order_witness :
    (getChaptersPure "OEBPS/".toList [("ch1".toList, "text/ch01.html".toList)]
        ["ch1".toList] []).map Chapter.path
      = ["ch1".toList].filterMap
          (manifestLookup (buildManifest "OEBPS/".toList
            [("ch1".toList, "text/ch01.html".toList)])) :=
  (getChapters_spine_order "OEBPS/".toList [("ch1".toList, "text/ch01.html".toList)]
    ["ch1".toList] [] (by decide)).1

/-- C9: the path normalizer is idempotent, and every chapter produced by the
chapter pipeline has a path that is a fixed point of the normalizer, is
non-empty, and is in canonical form: no empty, "." or ".." segments and no
leading or trailing '/'. -/
theorem chapters_paths_canonical :
    (∀ s : Str, normalizePath (normalizePath s) = normalizePath s) ∧
    (∀ (opfDir : Str) (items : List (Str × Str)) (idrefs : List Str)
      (toc : List TocEntry), ∀ c ∈ getChaptersPure opfDir items idrefs toc,
        normalizePath c.path = c.path ∧ c.path ≠ [] ∧ canonicalPath c.path) := by
  refine ⟨normalizePath_idem, ?_⟩
  intro opfDir items idrefs toc c hc
  unfold getChaptersPure buildChapters at hc
  rcases List.mem_map.mp hc with ⟨p, hp, he⟩
  have hpath : c.path = p := by rw [← he, chapterFor_path]
  rcases mem_buildSpine hp with ⟨hne, pr, hpr, hq⟩
  rcases mem_buildManifest hpr with ⟨src, hsrc⟩
  have hps : p = normalizePath src := by rw [← hq, hsrc]
  rw [hpath, hps]
  have hnn : normalizePath src ≠ [] := by rw [← hps, ← hq]; exact hq ▸ hne
  exact ⟨normalizePath_idem src, hnn, normalizePath_canonical src hnn⟩

/-- Witness for C9 at the scenario chapter. -/
theorem chapters_paths_canonical_witness :
    normalizePath "OEBPS/text/ch01.html".toList = "OEBPS/text/ch01.html".toList ∧
    "OEBPS/text/ch01.html".toList ≠ ([] : Str) ∧
    canonicalPath "OEBPS/text/ch01.html".toList :=
  chapters_paths_canonical.2 "OEBPS/".toList [("ch1".toList, "text/ch01.html".toList)]
    ["ch1".toList] [] ⟨"ch01.html".toList, "OEBPS/text/ch01.html".toList⟩ (by decide)

/-! ## Claim C3: the title rule and the container scenario -/

/-- C3: a chapter's title is the title of the FIRST table-of-contents entry
whose path equals the spine path (exact canonical-path equality); when none
matches, the title is the final '/'-delimited path segment.  In the scenario
archive (container pointer OEBPS/content.opf, manifest ch1 -> text/ch01.html,
spine ch1, no TOC of either kind), getChapters returns exactly one chapter
titled "ch01.html" with path "OEBPS/text/ch01.html", closing the reader
once. -/
theorem chapter_title_rule :
    (∀ (toc1 toc2 : List TocEntry) (t : TocEntry) (path : Str),
      (∀ u ∈ toc1, u.path ≠ path) → t.path = path →
      chapterFor (toc1 ++ t :: toc2) path = ⟨t.title, path⟩) ∧
    (∀ (toc : List TocEntry) (path : Str), (∀ u ∈ toc, u.path ≠ path) →
      chapterFor toc path = ⟨lastSegment path, path⟩) ∧
    getChaptersRun demoEntries demoOracles
      = (.ok [⟨"ch01.html".toList, "OEBPS/text/ch01.html".toList⟩], 1) := by
  refine ⟨?_, ?_, rfl⟩
  · intro toc1 toc2 t path h1 ht
    unfold chapterFor
    rw [List.find?_append,
      List.find?_eq_none.mpr (fun u hu => by simpa using h1 u hu),
      Option.none_or, List.find?_cons_of_pos _ (by simp [ht])]
  · intro toc path h
    unfold chapterFor
    rw [List.find?_eq_none.mpr (fun u hu => by simpa using h u hu)]

/-- Witness for C3: a matching TOC entry supplies the title, and with no TOC
the filename is used. -/
theorem chapter_title_rule_witness :
    chapterFor [⟨"Chapter One".toList, "OEBPS/text/ch01.html".toList⟩]
        "OEBPS/text/ch01.html".toList
      = ⟨"Chapter One".toList, "OEBPS/text/ch01.html".toList⟩ ∧
    chapterFor [] "OEBPS/text/ch01.html".toList
      = ⟨lastSegment "OEBPS/text/ch01.html".toList, "OEBPS/text/ch01.html".toList⟩ :=
  ⟨chapter_title_rule.1 [] [] ⟨"Chapter One".toList, "OEBPS/text/ch01.html".toList⟩
      "OEBPS/text/ch01.html".toList (by simp) rfl,
    chapter_title_rule.2.1 [] "OEBPS/text/ch01.html".toList (by simp)⟩

/-! ## Claim C4: two-tier TOC fallback -/

theorem stripFragment_idem (h : Str) : stripFragment (stripFragment h) = stripFragment h := by
  by_cases hh : '#' ∈ h
  · unfold stripFragment
    rw [if_pos hh]
    have hno : '#' ∉ h.takeWhile (fun c => c ≠ '#') := by
      intro hmem
      have := List.mem_takeWhile_imp hmem
      simp at this
    rw [if_neg hno]
  · simp [stripFragment, hh]

theorem resolvedPath_strip (opfDir h : Str) :
    resolvedPath opfDir (stripFragment h) = resolvedPath opfDir h := by
  unfold resolvedPath
  rw [stripFragment_idem]

theorem tocFold_strip (opfDir : Str) : ∀ (points : List (Str × Str)) (init : List TocEntry),
    (points.map (fun pr => (pr.1, stripFragment pr.2))).foldl
      (fun toc pr => tocInsert toc pr.1 (resolvedPath opfDir pr.2)) init
    = points.foldl (fun toc pr => tocInsert toc pr.1 (resolvedPath opfDir pr.2)) init
  | [], _ => rfl
  | pr :: points, init => by
    rw [List.map_cons, List.foldl_cons, List.foldl_cons]
    show (points.map (fun pr => (pr.1, stripFragment pr.2))).foldl _
        (tocInsert init pr.1 (resolvedPath opfDir (stripFragment pr.2))) = _
    rw [resolvedPath_strip]
    exact tocFold_strip opfDir points _

theorem tocInsert_nodup {toc : List TocEntry} (title path : Str)
    (h : (toc.map TocEntry.path).Nodup) :
    ((tocInsert toc title path).map TocEntry.path).Nodup := by
  unfold tocInsert
  by_cases hany : toc.any (fun t => t.path == path) = true
  · rw [if_pos hany]
    exact h
  · rw [if_neg hany]
    rw [List.map_append]
    refine h.append (by simp) ?_
    intro a ha hb
    have hap : a = path := by simpa using hb
    rcases List.mem_map.mp ha with ⟨t, ht, hta⟩
    exact hany (List.any_eq_true.mpr ⟨t, ht, by simp [hta, hap]⟩)

theorem tocFold_nodup (opfDir : Str) : ∀ (points : List (Str × Str)) (init : List TocEntry),
    (init.map TocEntry.path).Nodup →
    ((points.foldl (fun toc pr => tocInsert toc pr.1 (resolvedPath opfDir pr.2)) init).map
      TocEntry.path).Nodup
  | [], _, h => h
  | pr :: points, init, h => by
    rw [List.foldl_cons]
    exact tocFold_nodup opfDir points _ (tocInsert_nodup pr.1 _ h)

/-- C4: the TOC is resolved by an ordered two-tier fallback: a non-empty
legacy (NCX) tier result is returned as is, the modern (nav-property) tier is
consulted exactly when the legacy tier yields zero entries, and when both
tiers yield nothing the result is the empty TOC without error; within a tier,
fragments are stripped from hrefs before normalization, resolved paths are
pairwise distinct, and a point whose resolved path is already present leaves
the tier result unchanged (first entry per path wins). -/
theorem toc_two_tier :
    (∀ (entries : List EntryModel) (O : ParseOracles) (opfXml opfDir : Str)
      (t1 : List TocEntry), legacyTier entries O opfXml opfDir = .ok t1 → t1 ≠ [] →
      getTOCRun entries O opfXml opfDir = .ok t1) ∧
    (∀ (entries : List EntryModel) (O : ParseOracles) (opfXml opfDir : Str),
      legacyTier entries O opfXml opfDir = .ok [] →
      getTOCRun entries O opfXml opfDir = modernTier entries O opfXml opfDir) ∧
    (∀ (entries : List EntryModel) (O : ParseOracles) (opfXml opfDir : Str),
      legacyTier entries O opfXml opfDir = .ok [] →
      modernTier entries O opfXml opfDir = .ok [] →
      getTOCRun entries O opfXml opfDir = .ok []) ∧
    (∀ (opfDir : Str) (points : List (Str × Str)),
      buildTocTier opfDir (points.map (fun pr => (pr.1, stripFragment pr.2)))
        = buildTocTier opfDir points) ∧
    (∀ (opfDir : Str) (points : List (Str × Str)),
      ((buildTocTier opfDir points).map TocEntry.path).Nodup) ∧
    (∀ (opfDir : Str) (points : List (Str × Str)) (l h : Str),
      resolvedPath opfDir h ∈ (buildTocTier opfDir points).map TocEntry.path →
      buildTocTier opfDir (points ++ [(l, h)]) = buildTocTier opfDir points) := by
  refine ⟨?_, ?_, ?_, ?_, ?_, ?_⟩
  · intro entries O opfXml opfDir t1 hle ht1
    unfold getTOCRun
    rw [hle]
    show (if t1.length = 0 then _ else pure t1) = Except.ok t1
    rw [if_neg (by simpa using ht1)]
    rfl
  · intro entries O opfXml opfDir hle
    unfold getTOCRun
    rw [hle]
    rfl
  · intro entries O opfXml opfDir hle hmod
    unfold getTOCRun
    rw [hle]
    show (if ([] : List TocEntry).length = 0 then modernTier entries O opfXml opfDir
      else pure []) = Except.ok []
    have h0 : ([] : List TocEntry).length = 0 := rfl
    rw [if_pos h0, hmod]
  · intro opfDir points
    exact tocFold_strip opfDir points []
  · intro opfDir points
    exact tocFold_nodup opfDir points [] (by simp)
  · intro opfDir points l h hmem
    unfold buildTocTier
    rw [List.foldl_append, List.foldl_cons]
    show List.foldl _ (tocInsert (buildTocTier opfDir points) l (resolvedPath opfDir h)) [] = _
    rcases List.mem_map.mp hmem with ⟨t, ht, hta⟩
    unfold tocInsert
    rw [if_pos (List.any_eq_true.mpr ⟨t, ht, by simp [hta]⟩)]
    rfl

/-- Witness for C4: a one-point legacy tier wins and the modern tier is
ignored. -/
theorem toc_two_tier_witness :
    getTOCRun [⟨"toc.ncx".toList, true, .ok []⟩]
      ⟨fun _ => none, fun _ => [], fun _ => [], fun _ => some "toc.ncx".toList,
        fun _ => [("T".toList, "x.html".toList)], fun _ => none, fun _ => []⟩ [] []
      = .ok [⟨"T".toList, "x.html".toList⟩] :=
  toc_two_tier.1 [⟨"toc.ncx".toList, true, .ok []⟩]
    ⟨fun _ => none, fun _ => [], fun _ => [], fun _ => some "toc.ncx".toList,
      fun _ => [("T".toList, "x.html".toList)], fun _ => none, fun _ => []⟩ [] []
    [⟨"T".toList, "x.html".toList⟩] rfl (by simp)

/-! ## Claim C2: reader.close() on every exit path -/

/-- C2: close counts per exit path of the run models.  The anticipated paths
close the reader exactly once: success and the explicit early-error returns.
But when entry.getData throws - on the requested file in getEpubFile, or on
the container document or the NCX navigation document in getChapters - the
error propagates with ZERO close calls, because the source has no
try/finally around the reads. -/
theorem close_exit_paths :
    getEpubFileRun [⟨"a.html".toList, true, .ok "x".toList⟩] "a.html".toList
      = (.ok "x".toList, 1) ∧
    getEpubFileRun [] "a.html".toList
      = (.error "File not found or is a directory in EPUB", 1) ∧
    getEpubFileRun [⟨"a.html".toList, true, .error "corrupt entry data"⟩] "a.html".toList
      = (.error "corrupt entry data", 0) ∧
    (getChaptersRun demoEntries demoOracles).2 = 1 ∧
    getChaptersRun demoEntriesBadContainer demoOracles = (.error "corrupt entry data", 0) ∧
    getChaptersRun demoEntriesBadNcx demoOraclesNcx = (.error "corrupt ncx data", 0) :=
  ⟨rfl, rfl, rfl, rfl, rfl, rfl⟩

/-! ## Claim C5: the chunked reader -/

/-- C5: the chunked reader returns text.substring(offset, offset+length) and
appends the continuation marker exactly when offset+length < text.length;
reading from offset 0 with length at least text.length returns the full text
with no marker; reading from an offset at or past text.length returns the
empty string; arguments outside [0, text.length] are clamped by substring
semantics, never an error. -/
theorem chunkRead_spec :
    (∀ (text : Str) (o l : Int),
      chunkRead text o l = jsSubstring text o (o + l) ++
        (if o + l < (text.length : Int) then truncMarker (o + l) else [])) ∧
    (∀ (text : Str) (l : Int), 0 ≤ l → (text.length : Int) ≤ l →
      chunkRead text 0 l = text) ∧
    (∀ (text : Str) (o l : Int), 0 ≤ l → (text.length : Int) ≤ o →
      chunkRead text o l = []) ∧
    (∀ (text : Str) (a b : Int),
      jsSubstring text a b
        = jsSubstring text (min (max a 0) (text.length : Int))
            (min (max b 0) (text.length : Int))) := by
  refine ⟨?_, ?_, ?_, ?_⟩
  · intro text o l
    simp only [chunkRead, gt_iff_lt]
    by_cases hc : o + l < (text.length : Int)
    · rw [if_pos hc, if_pos hc]
    · rw [if_neg hc, if_neg hc, List.append_nil]
  · intro text l h0 hl
    simp only [chunkRead, jsSubstring]
    rw [if_neg (by omega)]
    have hA : min (max (0 : Int) 0) (text.length : Int) = 0 := by omega
    have hB : min (max (0 + l) 0) (text.length : Int) = (text.length : Int) := by omega
    rw [hA, hB]
    have hmax : max (0 : Int) (text.length : Int) = (text.length : Int) := by omega
    have hmin : min (0 : Int) (text.length : Int) = 0 := by omega
    rw [hmax, hmin]
    simp
  · intro text o l h0 ho
    simp only [chunkRead, jsSubstring]
    rw [if_neg (by omega)]
    have hA : min (max o 0) (text.length : Int) = (text.length : Int) := by omega
    have hB : min (max (o + l) 0) (text.length : Int) = (text.length : Int) := by omega
    rw [hA, hB, max_self, min_self]
    simp [List.drop_eq_nil_of_le]
  · intro text a b
    simp only [jsSubstring]
    have hA : min (max (min (max a 0) (text.length : Int)) 0) (text.length : Int)
        = min (max a 0) (text.length : Int) := by omega
    have hB : min (max (min (max b 0) (text.length : Int)) 0) (text.length : Int)
        = min (max b 0) (text.length : Int) := by omega
    rw [hA, hB]

/-- Witness for C5: a five-character text read in full, and read from past
its end. -/
theorem chunkRead_spec_witness :
    chunkRead "hello".toList 0 30000 = "hello".toList ∧
    chunkRead "hello".toList 7 3 = [] :=
  ⟨chunkRead_spec.2.1 "hello".toList 30000 (by decide) (by decide),
    chunkRead_spec.2.2.1 "hello".toList 7 3 (by decide) (by decide)⟩

/-! ## Search-scan lemmas -/

theorem isPrefixOf_length_le : ∀ (q l : Str), q.isPrefixOf l = true → q.length ≤ l.length
  | [], _, _ => Nat.zero_le _
  | _ :: _, [], h => by simp [List.isPrefixOf] at h
  | a :: as, b :: bs, h => by
    simp only [List.isPrefixOf, Bool.and_eq_true] at h
    simpa using Nat.succ_le_succ (isPrefixOf_length_le as bs h.2)

theorem occursAt_le {s q : Str} {i : Nat} (h : occursAt s q i = true) :
    q.length ≤ s.length := by
  have h1 := isPrefixOf_length_le q (s.drop i) h
  rw [List.length_drop] at h1
  omega

theorem occursAt_bound {s q : Str} {i : Nat} (hq : q ≠ []) (h : occursAt s q i = true) :
    i < s.length := by
  have h1 := isPrefixOf_length_le q (s.drop i) h
  rw [List.length_drop] at h1
  have h2 : 0 < q.length := List.length_pos.mpr hq
  omega

theorem occursAt_nil_q (s : Str) (i : Nat) : occursAt s [] i = true := by
  simp [occursAt, List.isPrefixOf]

theorem findFrom_eq_head (s q : Str) : ∀ (fuel start : Nat),
    findFrom s q start fuel = (occsFrom s q start fuel).head?
  | 0, _ => rfl
  | fuel + 1, start => by
    by_cases h : occursAt s q start = true
    · simp [findFrom, occsFrom, h]
    · simp only [findFrom, occsFrom, if_neg h]
      exact findFrom_eq_head s q fuel (start + 1)

theorem occsFrom_head_occ (s q : Str) : ∀ (fuel start i : Nat),
    (occsFrom s q start fuel).head? = some i → occursAt s q i = true ∧ start ≤ i
  | 0, _, _, h => by simp [occsFrom] at h
  | fuel + 1, start, i, h => by
    by_cases hocc : occursAt s q start = true
    · rw [occsFrom, if_pos hocc] at h
      have : start = i := by simpa using h
      exact this ▸ ⟨hocc, Nat.le_refl _⟩
    · rw [occsFrom, if_neg hocc] at h
      have := occsFrom_head_occ s q fuel (start + 1) i h
      exact ⟨this.1, by omega⟩

theorem occsFrom_head_cons (s q : Str) : ∀ (fuel start i : Nat),
    (occsFrom s q start fuel).head? = some i →
    occsFrom s q start fuel = i :: occsFrom s q (i + 1) (start + fuel - (i + 1))
  | 0, _, _, h => by simp [occsFrom] at h
  | fuel + 1, start, i, h => by
    by_cases hocc : occursAt s q start = true
    · rw [occsFrom, if_pos hocc] at h ⊢
      have hsi : start = i := by simpa using h
      subst hsi
      have harith : start + (fuel + 1) - (start + 1) = fuel := by omega
      rw [harith]
    · rw [occsFrom, if_neg hocc] at h ⊢
      have harith : start + 1 + fuel - (i + 1) = start + (fuel + 1) - (i + 1) := by omega
      rw [occsFrom_head_cons s q fuel (start + 1) i h, harith]

theorem indexOfFrom_eq_head (s q : Str) (fromIdx : Nat) (h : fromIdx ≤ s.length) :
    indexOfFrom s q fromIdx = (occsFrom s q fromIdx (s.length + 1 - fromIdx)).head? := by
  simp only [indexOfFrom]
  rw [Nat.min_eq_left h]
  exact findFrom_eq_head s q _ _

theorem indexOfFrom_nil_q (s : Str) (fromIdx : Nat) :
    indexOfFrom s [] fromIdx = some (min fromIdx s.length) := by
  simp only [indexOfFrom]
  have hfuel : s.length + 1 - min fromIdx s.length
      = (s.length - min fromIdx s.length) + 1 := by omega
  rw [hfuel]
  simp [findFrom, occursAt_nil_q]

theorem scan_offsets (title path text lower lowerQ : Str) (qlen : Nat)
    (hq : lowerQ ≠ []) : ∀ (fuel fromIdx : Nat) (acc : List SearchHit),
    fromIdx ≤ lower.length → fuel = maxResults - acc.length →
    acc.length < maxResults →
    (scanChapterLoop title path text lower lowerQ qlen fuel fromIdx acc).map
        SearchHit.markdownOffset
      = acc.map SearchHit.markdownOffset
        ++ (occsFrom lower lowerQ fromIdx (lower.length + 1 - fromIdx)).take fuel
  | 0, fromIdx, acc, _, hfuel, hcap => by omega
  | fuel + 1, fromIdx, acc, hle, hfuel, hcap => by
    rcases hh : (occsFrom lower lowerQ fromIdx (lower.length + 1 - fromIdx)).head? with _ | i
    · have hidx : indexOfFrom lower lowerQ fromIdx = none := by
        rw [indexOfFrom_eq_head lower lowerQ fromIdx hle, hh]
      rw [List.head?_eq_none_iff.mp hh]
      simp [scanChapterLoop, hidx]
    · have hidx : indexOfFrom lower lowerQ fromIdx = some i := by
        rw [indexOfFrom_eq_head lower lowerQ fromIdx hle, hh]
      have hocc := occsFrom_head_occ lower lowerQ _ fromIdx i hh
      have hib : i < lower.length := occursAt_bound hq hocc.1
      have hcons := occsFrom_head_cons lower lowerQ _ fromIdx i hh
      have harith : fromIdx + (lower.length + 1 - fromIdx) - (i + 1)
          = lower.length + 1 - (i + 1) := by omega
      rw [harith] at hcons
      have hlen' : (acc ++ [mkHit title path text qlen i]).length = acc.length + 1 := by
        simp
      simp only [scanChapterLoop, hidx]
      by_cases hstop : maxResults ≤ acc.length + 1
      · rw [if_pos (hlen' ▸ hstop)]
        have hfuel0 : fuel = 0 := by omega
        subst hfuel0
        rw [hcons]
        simp [mkHit]
      · rw [if_neg (hlen' ▸ hstop)]
        rw [scan_offsets title path text lower lowerQ qlen hq fuel (i + 1)
          (acc ++ [mkHit title path text qlen i]) (by omega) (by omega) (by omega)]
        rw [hcons]
        simp [mkHit]

theorem scan_len_le (title path text lower lowerQ : Str) (qlen : Nat) :
    ∀ (fuel fromIdx : Nat) (acc : List SearchHit),
    acc.length + fuel ≤ maxResults →
    (scanChapterLoop title path text lower lowerQ qlen fuel fromIdx acc).length
      ≤ maxResults
  | 0, _, acc, h => by
    simpa [scanChapterLoop] using by omega
  | fuel + 1, fromIdx, acc, h => by
    rcases hidx : indexOfFrom lower lowerQ fromIdx with _ | i
    · simp only [scanChapterLoop, hidx]
      omega
    · simp only [scanChapterLoop, hidx]
      have hlen' : (acc ++ [mkHit title path text qlen i]).length = acc.length + 1 := by
        simp
      by_cases hstop : maxResults ≤ (acc ++ [mkHit title path text qlen i]).length
      · rw [if_pos hstop]
        omega
      · rw [if_neg hstop]
        exact scan_len_le title path text lower lowerQ qlen fuel (i + 1) _ (by omega)

theorem scan_mem (title path text lower lowerQ : Str) (qlen : Nat) :
    ∀ (fuel fromIdx : Nat) (acc : List SearchHit) (h : SearchHit),
    h ∈ scanChapterLoop title path text lower lowerQ qlen fuel fromIdx acc →
    h ∈ acc ∨ (h.chapterPath = path ∧ lowerQ.length ≤ lower.length)
  | 0, _, _, h, hmem => Or.inl hmem
  | fuel + 1, fromIdx, acc, h, hmem => by
    rcases hidx : indexOfFrom lower lowerQ fromIdx with _ | i
    · rw [scanChapterLoop, hidx] at hmem
      exact Or.inl hmem
    · have hocc : occursAt lower lowerQ i = true := by
        have hle : min fromIdx lower.length ≤ lower.length := Nat.min_le_right _ _
        have heq : indexOfFrom lower lowerQ fromIdx
            = (occsFrom lower lowerQ (min fromIdx lower.length)
                (lower.length + 1 - min fromIdx lower.length)).head? := by
          simp only [indexOfFrom]
          exact findFrom_eq_head lower lowerQ _ _
        exact (occsFrom_head_occ lower lowerQ _ _ i (heq ▸ hidx)).1
      have hql : lowerQ.length ≤ lower.length := occursAt_le hocc
      simp only [scanChapterLoop, hidx] at hmem
      have hsplit : ∀ x : SearchHit, x ∈ acc ++ [mkHit title path text qlen i] →
          x ∈ acc ∨ (x.chapterPath = path ∧ lowerQ.length ≤ lower.length) := by
        intro x hx
        rcases List.mem_append.mp hx with hx | hx
        · exact Or.inl hx
        · have : x = mkHit title path text qlen i := List.mem_singleton.mp hx
          exact Or.inr ⟨by rw [this]; rfl, hql⟩
      by_cases hstop : maxResults ≤ (acc ++ [mkHit title path text qlen i]).length
      · rw [if_pos hstop] at hmem
        exact hsplit h hmem
      · rw [if_neg hstop] at hmem
        rcases scan_mem title path text lower lowerQ qlen fuel (i + 1) _ h hmem with
          hh | hh
        · exact hsplit h hh
        · exact Or.inr hh

theorem scan_nil_q_len (title path text lower : Str) (qlen : Nat) :
    ∀ (fuel fromIdx : Nat) (acc : List SearchHit),
    acc.length + fuel = maxResults → 0 < fuel →
    (scanChapterLoop title path text lower [] qlen fuel fromIdx acc).length
      = maxResults
  | 0, _, _, _, hpos => by omega
  | fuel + 1, fromIdx, acc, hfuel, _ => by
    have hidx := indexOfFrom_nil_q lower fromIdx
    simp only [scanChapterLoop, hidx]
    have hlen' : (acc ++ [mkHit title path text qlen (min fromIdx lower.length)]).length
        = acc.length + 1 := by simp
    by_cases hstop : maxResults ≤ acc.length + 1
    · rw [if_pos (hlen' ▸ hstop)]
      omega
    · rw [if_neg (hlen' ▸ hstop)]
      exact scan_nil_q_len title path text lower qlen fuel _ _ (by omega) (by omega)

theorem searchLoop_le (getText : Str → Str) (lowerQ : Str) (qlen : Nat) :
    ∀ (chs : List Chapter) (acc : List SearchHit), acc.length ≤ maxResults →
    (searchLoop getText lowerQ qlen chs acc).length ≤ maxResults
  | [], acc, h => h
  | ch :: rest, acc, h => by
    have hscan := scan_len_le ch.title ch.path (getText ch.path)
      (jsToLower (getText ch.path)) lowerQ qlen (maxResults - acc.length) 0 acc
      (by omega)
    simp only [searchLoop]
    by_cases hstop : maxResults ≤ (scanChapterLoop ch.title ch.path (getText ch.path)
        (jsToLower (getText ch.path)) lowerQ qlen (maxResults - acc.length) 0 acc).length
    · rw [if_pos hstop]
      exact hscan
    · rw [if_neg hstop]
      exact searchLoop_le getText lowerQ qlen rest _ (by omega)

theorem searchLoop_mem (getText : Str → Str) (lowerQ : Str) (qlen : Nat) :
    ∀ (chs : List Chapter) (acc : List SearchHit) (h : SearchHit),
    h ∈ searchLoop getText lowerQ qlen chs acc →
    h ∈ acc ∨ ∃ ch ∈ chs, h.chapterPath = ch.path ∧
      lowerQ.length ≤ (jsToLower (getText ch.path)).length
  | [], _, _, hmem => Or.inl hmem
  | ch :: rest, acc, h, hmem => by
    simp only [searchLoop] at hmem
    have hcase : ∀ x : SearchHit,
        x ∈ scanChapterLoop ch.title ch.path (getText ch.path)
          (jsToLower (getText ch.path)) lowerQ qlen (maxResults - acc.length) 0 acc →
        x ∈ acc ∨ ∃ c ∈ ch :: rest, x.chapterPath = c.path ∧
          lowerQ.length ≤ (jsToLower (getText c.path)).length := by
      intro x hx
      rcases scan_mem ch.title ch.path (getText ch.path) (jsToLower (getText ch.path))
        lowerQ qlen _ 0 acc x hx with hh | hh
      · exact Or.inl hh
      · exact Or.inr ⟨ch, List.mem_cons_self _ _, hh.1, hh.2⟩
    by_cases hstop : maxResults ≤ (scanChapterLoop ch.title ch.path (getText ch.path)
        (jsToLower (getText ch.path)) lowerQ qlen (maxResults - acc.length) 0 acc).length
    · rw [if_pos hstop] at hmem
      exact hcase h hmem
    · rw [if_neg hstop] at hmem
      rcases searchLoop_mem getText lowerQ qlen rest _ h hmem with hh | hh
      · exact hcase h hh
      · rcases hh with ⟨c, hc, hrest⟩
        exact Or.inr ⟨c, List.mem_cons_of_mem _ hc, hrest⟩

theorem searchLoop_stop (getText : Str → Str) (lowerQ : Str) (qlen : Nat) :
    ∀ (chs more : List Chapter) (acc : List SearchHit),
    maxResults ≤ (searchLoop getText lowerQ qlen chs acc).length →
    searchLoop getText lowerQ qlen (chs ++ more) acc
      = searchLoop getText lowerQ qlen chs acc
  | [], more, acc, hcap => by
    cases more with
    | nil => rfl
    | cons ch rest =>
      have hacc : maxResults ≤ acc.length := hcap
      have hz : maxResults - acc.length = 0 := by omega
      show searchLoop getText lowerQ qlen (ch :: rest) acc = acc
      simp only [searchLoop, hz, scanChapterLoop]
      rw [if_pos hacc]
  | ch :: chs, more, acc, hcap => by
    rw [List.cons_append]
    simp only [searchLoop] at hcap ⊢
    by_cases hstop : maxResults ≤ (scanChapterLoop ch.title ch.path (getText ch.path)
        (jsToLower (getText ch.path)) lowerQ qlen (maxResults - acc.length) 0 acc).length
    · rw [if_pos hstop, if_pos hstop]
    · rw [if_neg hstop] at hcap
      rw [if_neg hstop, if_neg hstop]
      exact searchLoop_stop getText lowerQ qlen chs more _ hcap

theorem searchLoop_head_cap (getText : Str → Str) (lowerQ : Str) (qlen : Nat)
    (ch : Chapter) (rest : List Chapter) (acc : List SearchHit)
    (h : (scanChapterLoop ch.title ch.path (getText ch.path)
        (jsToLower (getText ch.path)) lowerQ qlen (maxResults - acc.length) 0
        acc).length = maxResults) :
    (searchLoop getText lowerQ qlen (ch :: rest) acc).length = maxResults := by
  simp only [searchLoop]
  rw [if_pos (Nat.le_of_eq h.symm)]
  exact h

/-! ## Claims C6, C7 and C10 -/

/-- C6: searchInBook returns at most 50 hits in total; an empty chapter list
yields no hits; every hit comes from a listed chapter whose converted text is
at least as long as the query (so a query longer than a chapter's whole
converted text yields no hit in that chapter); and once a book's scan has
produced the 50th hit, appending further chapters changes nothing - the scan
stops across the remaining chapters. -/
theorem search_cap :
    (∀ (chapters : List Chapter) (getText : Str → Str) (q : Str),
      (searchInBook chapters getText q).length ≤ maxResults) ∧
    (∀ (getText : Str → Str) (q : Str), searchInBook [] getText q = []) ∧
    (∀ (chapters : List Chapter) (getText : Str → Str) (q : Str) (h : SearchHit),
      h ∈ searchInBook chapters getText q →
      ∃ ch ∈ chapters, h.chapterPath = ch.path ∧ q.length ≤ (getText ch.path).length) ∧
    (∀ (chapters more : List Chapter) (getText : Str → Str) (q : Str),
      (searchInBook chapters getText q).length = maxResults →
      searchInBook (chapters ++ more) getText q = searchInBook chapters getText q) := by
  refine ⟨?_, ?_, ?_, ?_⟩
  · intro chapters getText q
    exact searchLoop_le getText (jsToLower q) q.length chapters [] (Nat.zero_le _)
  · intro getText q
    rfl
  · intro chapters getText q h hmem
    rcases searchLoop_mem getText (jsToLower q) q.length chapters [] h hmem with hh | hh
    · simp at hh
    · rcases hh with ⟨ch, hch, hp, hle⟩
      refine ⟨ch, hch, hp, ?_⟩
      simpa [jsToLower] using hle
  · intro chapters more getText q hlen
    exact searchLoop_stop getText (jsToLower q) q.length chapters more []
      (Nat.le_of_eq hlen.symm)

/-- Witness for C6: the single hit for "b" in converted text "abc" comes from
the listed chapter, and a book already at the 50-hit cap is unchanged by an
extra chapter. -/
theorem search_cap_witness :
    (∃ ch ∈ [(⟨"c".toList, "p".toList⟩ : Chapter)],
      (⟨"c".toList, "p".toList, 1, "abc".toList⟩ : SearchHit).chapterPath = ch.path ∧
      "b".toList.length ≤ ((fun _ => "abc".toList) ch.path).length) ∧
    searchInBook ([⟨"c".toList, "p".toList⟩] ++ [⟨"d".toList, "r".toList⟩])
        (fun _ => []) [] = searchInBook [⟨"c".toList, "p".toList⟩] (fun _ => []) [] :=
  ⟨search_cap.2.2.1 [⟨"c".toList, "p".toList⟩] (fun _ => "abc".toList) "b".toList
      ⟨"c".toList, "p".toList, 1, "abc".toList⟩ (by decide),
    search_cap.2.2.2 [⟨"c".toList, "p".toList⟩] [⟨"d".toList, "r".toList⟩]
      (fun _ => []) [] rfl⟩

/-- C7: over one chapter, the forward scan advances the cursor by exactly one
past each match start, so the reported offsets are precisely ALL occurrence
positions of the case-folded query in the case-folded converted text (capped
at 50), overlapping ones included; in particular query "aa" over text "aaa"
reports offsets 0 and 1. -/
theorem search_overlapping :
    (∀ (title path : Str) (getText : Str → Str) (q : Str), q ≠ [] →
      (searchInBook [⟨title, path⟩] getText q).map SearchHit.markdownOffset
        = (occurrences (jsToLower (getText path)) (jsToLower q)).take maxResults) ∧
    (searchInBook [⟨"c".toList, "p".toList⟩] (fun _ => "aaa".toList) "aa".toList).map
        SearchHit.markdownOffset = [0, 1] := by
  constructor
  · intro title path getText q hq
    have hql : jsToLower q ≠ [] := by simpa [jsToLower] using hq
    have hloop : searchInBook [⟨title, path⟩] getText q
        = scanChapterLoop title path (getText path) (jsToLower (getText path))
            (jsToLower q) q.length (maxResults - List.length ([] : List SearchHit))
            0 [] := by
      show searchLoop getText (jsToLower q) q.length [⟨title, path⟩] [] = _
      simp only [searchLoop]
      by_cases hcap : maxResults ≤ (scanChapterLoop title path (getText path)
          (jsToLower (getText path)) (jsToLower q) q.length
          (maxResults - List.length ([] : List SearchHit)) 0 []).length
      · rw [if_pos hcap]
      · rw [if_neg hcap]
    rw [hloop, scan_offsets title path (getText path) (jsToLower (getText path))
      (jsToLower q) q.length hql (maxResults - List.length ([] : List SearchHit)) 0 []
      (Nat.zero_le _) rfl (by decide)]
    simp [occurrences]
  · rfl

/-- Witness for C7: the overlapping-match example. -/
theorem search_overlapping_witness :
    (searchInBook [⟨"c".toList, "p".toList⟩] (fun _ => "aaa".toList) "aa".toList).map
        SearchHit.markdownOffset
      = (occurrences (jsToLower "aaa".toList) (jsToLower "aa".toList)).take maxResults :=
  search_overlapping.1 "c".toList "p".toList (fun _ => "aaa".toList) "aa".toList
    (by decide)

/-- C10: on any book with at least one chapter, the empty-string query yields
EXACTLY 50 hits: the empty query matches at every cursor position, the
clamped forward scan revisits the text end indefinitely, and only the 50-hit
cap stops the loop. -/
theorem search_empty_query (chapters : List Chapter) (getText : Str → Str)
    (hne : chapters ≠ []) :
    (searchInBook chapters getText []).length = maxResults := by
  cases chapters with
  | nil => exact absurd rfl hne
  | cons ch rest =>
    exact searchLoop_head_cap getText (jsToLower []) (List.length ([] : Str)) ch rest []
      (scan_nil_q_len ch.title ch.path (getText ch.path) (jsToLower (getText ch.path))
        (List.length ([] : Str)) (maxResults - List.length ([] : List SearchHit)) 0 []
        (by decide) (by decide))

/-- Witness for C10: a one-chapter book with empty converted text still
produces exactly 50 hits for the empty query. -/
theorem search_empty_query_witness :
    (searchInBook [⟨"c".toList, "p".toList⟩] (fun _ => []) []).length = maxResults :=
  search_empty_query [⟨"c".toList, "p".toList⟩] (fun _ => []) (by simp)

end AccessCalibre
